import Mathlib

/-!
Verification of the lazy concatenation chain from
`src/cpp_recursive_types/lazy_concat.cpp`.

The C++ template `lazy_concatenator<Head, Tail...>` is a recursively
nested value type: the general specialization stores one fragment
`m_head` (the most recently appended fragment) together with a nested
chain `m_tail` holding the older fragments; the explicit specialization
`lazy_concatenator<>` is the terminal, zero-fragment chain.  Since every
fragment in the repository is a `std::string`, the nested template is
embedded as an inductive type whose `node` constructor carries one
`String` head and a tail chain.
-/

/-- The chain type.  `term` embeds the base specialization
`lazy_concatenator<>` (lazy_concat.cpp, lines 98-119); `node m_head m_tail`
embeds the general specialization (lines 34-89), which stores a head
fragment and the nested tail chain by value. -/
inductive lazy_concatenator : Type where
  | term : lazy_concatenator
  | node (m_head : String) (m_tail : lazy_concatenator) : lazy_concatenator
deriving DecidableEq, Repr

namespace lazy_concatenator

/-- Embeds `int size() const { return m_head.size() + m_tail.size(); }`
(line 54) and the base case `return 0` (lines 104-107).  The C++ return
type is `int`, so the result is an integer. -/
def size : lazy_concatenator → Int
  | .term => 0
  | .node h t => (h.length : Int) + t.size

/-- The size as a natural number: the sum of the byte lengths of the
fragments.  Used for buffer indices, where the C++ code converts through
`size_t`. -/
def sizeNat : lazy_concatenator → Nat
  | .term => 0
  | .node h t => h.length + t.sizeNat

/-- Embeds `std::copy(m_head.begin(), m_head.end(), begin)` writing the
characters of `s` into the buffer starting at position `pos`,
overwriting what was there. -/
def writeAt (buf : List Char) (pos : Nat) (s : List Char) : List Char :=
  buf.take pos ++ s ++ buf.drop (pos + s.length)

/-- Embeds `save` (lines 59-63 and 109-112).  The destination buffer is a
list of characters and the output iterator is the index `e` one past the
end of the region this chain occupies.  The general case computes
`begin = end - m_head.size()`, copies the head into `[begin, end)` and
recursively saves the tail at `begin`; the base case does nothing. -/
def save : lazy_concatenator → List Char → Nat → List Char
  | .term, buf, _ => buf
  | .node h t, buf, e => t.save (writeAt buf (e - h.length) h.data) (e - h.length)

/-- Embeds `operator+(const std::string&)` (lines 68-71 and 114-118): the
result is a brand-new chain whose head is the new fragment and whose tail
is a copy of `*this`. -/
def add (c : lazy_concatenator) (other : String) : lazy_concatenator :=
  .node other c

/-- Embeds `operator std::string()` (lines 76-80): allocate a string of
`size()` null characters, call `save` with the end iterator (index
`size()`), and return the filled buffer. -/
def to_string (c : lazy_concatenator) : String :=
  String.mk (c.save (List.replicate c.size.toNat (Char.ofNat 0)) c.size.toNat)

/-- Appending a whole list of fragments in order, starting from `c`. -/
def appendAll (c : lazy_concatenator) (fs : List String) : lazy_concatenator :=
  fs.foldl add c

/-- The fragments reachable by following tail links, newest first. -/
def fragments : lazy_concatenator → List String
  | .term => []
  | .node h t => h :: t.fragments

/-- The logical left-to-right concatenation a chain denotes: older
fragments (deeper in the nesting) come first, the head comes last. -/
def flatten : lazy_concatenator → String
  | .term => ""
  | .node h t => t.flatten ++ h

/-- Head fragment of a chain, if any. -/
def headFragment : lazy_concatenator → Option String
  | .term => none
  | .node h _ => some h

/-- Tail chain of a chain, if any. -/
def tailChain : lazy_concatenator → Option lazy_concatenator
  | .term => none
  | .node _ t => some t

/-- The structural shape (arity) of a chain: how many fragment slots its
static type nests. -/
def shape : lazy_concatenator → Nat
  | .term => 0
  | .node _ t => t.shape + 1

/-- Modelled from the spec: the assignment `operator=` (lines 85-88) is
ill-formed as written, since it reads `other.tail` while the member is
named `m_tail` (and falls off the end of a reference-returning function);
the spec directs that reassignment be a straightforward field-wise deep
copy of both the fragment and the tail chain, defined only between chains
of identical shape.  This definition copies `m_head` from `other` and
recursively assigns the tail; on a shape mismatch (unreachable when both
sides have the same static type) it leaves the target unchanged. -/
def assign : lazy_concatenator → lazy_concatenator → lazy_concatenator
  | .term, _ => .term
  | .node _ ta, .node hb tb => .node hb (ta.assign tb)
  | .node h ta, .term => .node h ta

/-- A call to the const member `size()` observed together with the state
of the receiver afterwards: the call returns the computed size and does
not modify the chain. -/
def size_call (c : lazy_concatenator) : Int × lazy_concatenator :=
  (c.size, c)

theorem size_eq_sizeNat (c : lazy_concatenator) : c.size = (c.sizeNat : Int) := by
  induction c with
  | term => rfl
  | node h t ih => simp [size, sizeNat, ih]

theorem sizeNat_toNat (c : lazy_concatenator) : c.size.toNat = c.sizeNat := by
  rw [size_eq_sizeNat]; exact Int.toNat_natCast _

theorem flatten_data_length (c : lazy_concatenator) :
    c.flatten.data.length = c.sizeNat := by
  induction c with
  | term => rfl
  | node h t ih =>
      have hfl : (node h t).flatten = t.flatten ++ h := rfl
      have hdl : h.data.length = h.length := rfl
      rw [hfl, String.data_append, List.length_append, ih, hdl,
        show (node h t).sizeNat = h.length + t.sizeNat from rfl]
      omega

/-- Main characterization of `save`: when the destination range
`[e - size, e)` is inside the buffer, saving a chain rewrites exactly
that range with the flattened content and leaves the rest alone. -/
theorem save_spec (c : lazy_concatenator) (buf : List Char) (e : Nat)
    (h1 : c.sizeNat ≤ e) (h2 : e ≤ buf.length) :
    c.save buf e = buf.take (e - c.sizeNat) ++ c.flatten.data ++ buf.drop e := by
  induction c generalizing buf e with
  | term =>
      simp [save, flatten, sizeNat]
  | node h t ih =>
      have hs : (node h t).sizeNat = h.length + t.sizeNat := rfl
      rw [hs] at h1
      have hlen : h.length ≤ e := by omega
      have hts : t.sizeNat ≤ e - h.length := by omega
      have hdl : h.data.length = h.length := rfl
      have hplus : e - h.length + h.data.length = e := by omega
      have hdrop : writeAt buf (e - h.length) h.data =
          buf.take (e - h.length) ++ (h.data ++ buf.drop e) := by
        simp only [writeAt]
        rw [hplus, List.append_assoc]
      have htake : (buf.take (e - h.length)).length = e - h.length :=
        List.length_take_of_le (by omega)
      have hble : e - h.length ≤ (writeAt buf (e - h.length) h.data).length := by
        rw [hdrop]
        simp only [List.length_append]
        omega
      rw [save, ih _ _ hts hble, hdrop]
      have hk : e - h.length - t.sizeNat ≤ (buf.take (e - h.length)).length := by
        rw [htake]; omega
      rw [List.take_append_of_le_length hk, List.drop_left' htake]
      rw [List.take_take, inf_eq_left.mpr (by omega : e - h.length - t.sizeNat ≤ e - h.length)]
      have hfl : (node h t).flatten.data = t.flatten.data ++ h.data := by
        rw [show (node h t).flatten = t.flatten ++ h from rfl, String.data_append]
      rw [hfl, hs, Nat.sub_sub]
      simp [List.append_assoc]

theorem to_string_eq_flatten (c : lazy_concatenator) : c.to_string = c.flatten := by
  have hlen : (List.replicate c.sizeNat (Char.ofNat 0)).length = c.sizeNat := by
    simp
  unfold to_string
  rw [sizeNat_toNat, save_spec c _ c.sizeNat le_rfl (le_of_eq hlen.symm)]
  rw [Nat.sub_self, List.take_zero, List.drop_eq_nil_of_le (le_of_eq hlen)]
  rw [List.nil_append, List.append_nil]

theorem flatten_appendAll (c : lazy_concatenator) (fs : List String) :
    (c.appendAll fs).flatten = fs.foldl (fun a b => a ++ b) c.flatten := by
  induction fs generalizing c with
  | nil => rfl
  | cons f fs ih => exact ih (c.add f)

theorem assign_eq_of_shape (a b : lazy_concatenator) (h : a.shape = b.shape) :
    a.assign b = b := by
  induction a generalizing b with
  | term =>
      cases b with
      | term => rfl
      | node hb tb => simp [shape] at h
  | node ha ta ih =>
      cases b with
      | term => simp [shape] at h
      | node hb tb =>
          have h2 : ta.shape = tb.shape := by
            simp [shape] at h
            omega
          show lazy_concatenator.node hb (ta.assign tb) = lazy_concatenator.node hb tb
          rw [ih tb h2]

/-- C1: for every sequence of fragments appended in order to an empty
chain, materializing yields exactly their left-to-right concatenation; in
particular appending "Hello", " ", "World" gives size 11 and the string
"Hello World". -/
theorem materialization_correct :
    (∀ fs : List String,
      (lazy_concatenator.term.appendAll fs).to_string
        = fs.foldl (fun a b => a ++ b) "") ∧
    (lazy_concatenator.term.appendAll ["Hello", " ", "World"]).size = 11 ∧
    (lazy_concatenator.term.appendAll ["Hello", " ", "World"]).to_string
      = "Hello World" := by
  refine ⟨fun fs => ?_, by decide, ?_⟩
  · rw [to_string_eq_flatten, flatten_appendAll]
    rfl
  · rw [to_string_eq_flatten]
    decide

/-- C2: the size of any chain equals the sum of the byte lengths of all
fragments reachable by following tail links down to the terminal chain. -/
theorem size_eq_sum_fragments (c : lazy_concatenator) :
    c.size = ((c.fragments.map String.length).sum : Int) := by
  induction c with
  | term => rfl
  | node h t ih =>
      simp [size, fragments, ih]

/-- C3: for every chain C and fragment f, (C + f).size() equals
C.size() + f.length(). -/
theorem size_additivity (c : lazy_concatenator) (f : String) :
    (c.add f).size = c.size + (f.length : Int) := by
  simp [add, size]
  omega

/-- C4 over the spec-directed field-wise reassignment (the source
operator= is ill-formed, see `assign`): assigning chain B into chain A of
the same structural shape makes A materialize to what B materializes
to. -/
theorem assign_resumes (a b : lazy_concatenator) (h : a.shape = b.shape) :
    (a.assign b).to_string = b.to_string := by
  rw [assign_eq_of_shape a b h]

theorem assign_resumes_witness :
    (lazy_concatenator.node "xx" .term).shape = (lazy_concatenator.node "ab" .term).shape ∧
    ((lazy_concatenator.node "xx" .term).assign (lazy_concatenator.node "ab" .term)).to_string
      = (lazy_concatenator.node "ab" .term).to_string :=
  ⟨by decide, lazy_concatenator.assign_resumes (.node "xx" .term) (.node "ab" .term) (by decide)⟩

/-- C5: the terminal chain has size 0, its save is a no-op for every
buffer and iterator, and it materializes to the empty string. -/
theorem terminal_identity :
    lazy_concatenator.term.size = 0 ∧
    (∀ (buf : List Char) (e : Nat), lazy_concatenator.term.save buf e = buf) ∧
    lazy_concatenator.term.to_string = "" :=
  ⟨rfl, fun _ _ => rfl, by decide⟩

/-- C6: for a non-empty chain, save computes begin = e - head.size(),
copies the head bytes into the region ending at e, and recursively saves
the tail at begin, so the tail content lands immediately before the head
region inside the buffer. -/
theorem save_step (h : String) (t : lazy_concatenator) (buf : List Char) (e : Nat)
    (h1 : (lazy_concatenator.node h t).sizeNat ≤ e) (h2 : e ≤ buf.length) :
    (lazy_concatenator.node h t).save buf e
      = t.save (writeAt buf (e - h.length) h.data) (e - h.length) ∧
    (lazy_concatenator.node h t).save buf e
      = buf.take (e - (lazy_concatenator.node h t).sizeNat)
          ++ t.flatten.data ++ h.data ++ buf.drop e := by
  refine ⟨rfl, ?_⟩
  rw [save_spec _ _ _ h1 h2]
  rw [show (lazy_concatenator.node h t).flatten = t.flatten ++ h from rfl,
    String.data_append]
  simp [List.append_assoc]

theorem save_step_witness :
    (lazy_concatenator.node "b" (.node "a" .term)).sizeNat ≤ 3 ∧
    3 ≤ (['x', 'y', 'z'] : List Char).length ∧
    ((lazy_concatenator.node "b" (.node "a" .term)).save ['x', 'y', 'z'] 3
        = (lazy_concatenator.node "a" .term).save
            (writeAt ['x', 'y', 'z'] (3 - ("b" : String).length) ("b" : String).data)
            (3 - ("b" : String).length) ∧
     (lazy_concatenator.node "b" (.node "a" .term)).save ['x', 'y', 'z'] 3
        = (['x', 'y', 'z'] : List Char).take
              (3 - (lazy_concatenator.node "b" (.node "a" .term)).sizeNat)
            ++ (lazy_concatenator.node "a" .term).flatten.data ++ ("b" : String).data
            ++ (['x', 'y', 'z'] : List Char).drop 3) :=
  ⟨by decide, by decide,
    lazy_concatenator.save_step "b" (.node "a" .term) ['x', 'y', 'z'] 3 (by decide) (by decide)⟩

/-- C7: appending a fragment f to a chain C builds a brand-new chain whose
head is f and whose tail is a copy of C; C itself is untouched, since the
operation is a pure function of the value of C. -/
theorem add_structure (c : lazy_concatenator) (f : String) :
    c.add f = lazy_concatenator.node f c ∧
    (c.add f).headFragment = some f ∧
    (c.add f).tailChain = some c :=
  ⟨rfl, rfl, rfl⟩

/-- C8: the size of every chain is a non-negative integer. -/
theorem size_nonneg (c : lazy_concatenator) : 0 ≤ c.size := by
  rw [size_eq_sizeNat]
  exact Int.natCast_nonneg _

/-- C9: size() is a pure query: a call does not modify the chain, and a
second call on the resulting state returns the same value as the
first. -/
theorem size_idempotent (c : lazy_concatenator) :
    c.size_call.2 = c ∧ (c.size_call.2.size_call).1 = c.size_call.1 :=
  ⟨rfl, rfl⟩

/-- C10: save writes only inside the region ending at e of length size():
the buffer keeps its length, and every byte strictly before e - size()
and from e onward is unchanged. -/
theorem save_frame (c : lazy_concatenator) (buf : List Char) (e : Nat)
    (h1 : c.sizeNat ≤ e) (h2 : e ≤ buf.length) :
    (c.save buf e).length = buf.length ∧
    (c.save buf e).take (e - c.sizeNat) = buf.take (e - c.sizeNat) ∧
    (c.save buf e).drop e = buf.drop e := by
  have hfd : c.flatten.data.length = c.sizeNat := flatten_data_length c
  have ht : (buf.take (e - c.sizeNat)).length = e - c.sizeNat :=
    List.length_take_of_le (by omega)
  rw [save_spec c buf e h1 h2]
  refine ⟨?_, ?_, ?_⟩
  · simp only [List.length_append, ht, hfd, List.length_drop]
    omega
  · rw [List.append_assoc, List.take_append_of_le_length (le_of_eq ht.symm),
      List.take_take, inf_eq_left.mpr le_rfl]
  · have hlen2 : (buf.take (e - c.sizeNat) ++ c.flatten.data).length = e := by
      simp only [List.length_append, ht, hfd]
      omega
    rw [List.drop_left' hlen2]

theorem save_frame_witness :
    (lazy_concatenator.node "a" .term).sizeNat ≤ 2 ∧
    2 ≤ (['x', 'y', 'z'] : List Char).length ∧
    (((lazy_concatenator.node "a" .term).save ['x', 'y', 'z'] 2).length
        = (['x', 'y', 'z'] : List Char).length ∧
     ((lazy_concatenator.node "a" .term).save ['x', 'y', 'z'] 2).take
          (2 - (lazy_concatenator.node "a" .term).sizeNat)
        = (['x', 'y', 'z'] : List Char).take
            (2 - (lazy_concatenator.node "a" .term).sizeNat) ∧
     ((lazy_concatenator.node "a" .term).save ['x', 'y', 'z'] 2).drop 2
        = (['x', 'y', 'z'] : List Char).drop 2) :=
  ⟨by decide, by decide,
    lazy_concatenator.save_frame (.node "a" .term) ['x', 'y', 'z'] 2 (by decide) (by decide)⟩

end lazy_concatenator
